import Mathlib

/-!
Shallow embedding of the logReader server (`server.js`): the retention
sweep (`cleanupOldLogs`), the in-memory index rebuild (`loadLogsFromFiles`),
and the HTTP handlers for `GET /api/logs`, `GET /api/logs/list`,
`GET /api/logs/:fileName`, `POST /api/logs/save` and
`DELETE /api/logs/:fileName`.

Modelling conventions:
* A JavaScript `timestamp` field is modelled by `JsTimestamp`:
  `valid ms` is a value for which `new Date(ts)` yields a finite time
  `ms` (milliseconds since the epoch), `invalid` is a present but
  unparseable (truthy) value (`new Date(ts)` is an Invalid Date, i.e.
  NaN), and `missing` is an absent/falsy field (`new Date(undefined)`
  is also NaN, but `ts || 0` yields `0`).
* JavaScript `<` on two `Date`s compares their numeric values; any
  comparison involving NaN is `false`.  This is `jsLt` on `Option Int`
  with `none` playing the role of NaN.
* A log file's parsed JSON content is `Content`: a single entry object,
  an array of entries, or `malformed` (JSON.parse throws) / `ioError`
  (readFileSync throws).  The byte-level JSON serialisation is faithful
  on these values, so the store holds `Content` directly.
* The file system directory is a `Store`: an association list of
  (file name, content) in enumeration order.
-/

namespace LogReader

/-- Parse status of a JavaScript timestamp field (see module docstring). -/
inductive JsTimestamp where
  | valid (ms : Int)
  | invalid
  | missing
deriving DecidableEq, Repr

/-- One log entry (the fields of the data model; `timestamp` carries only
its parse status and numeric value, the others their raw strings). -/
structure LogEntry where
  timestamp : JsTimestamp
  userName : String
  companyId : String
  event : String
  details : String
  level : String
deriving DecidableEq, Repr

/-- `new Date(e.timestamp).getTime()`: `none` is NaN. -/
def parseMs : JsTimestamp → Option Int
  | .valid ms => some ms
  | .invalid => none
  | .missing => none

/-- `new Date(e.timestamp || 0).getTime()` (used by the save handler's
sort): a missing/falsy timestamp falls back to the epoch. -/
def parseMsOrZero : JsTimestamp → Option Int
  | .valid ms => some ms
  | .invalid => none
  | .missing => some 0

/-- JavaScript `<` on two Date values; any comparison with NaN (`none`)
is `false`. -/
def jsLt : Option Int → Option Int → Bool
  | some a, some b => a < b
  | _, _ => false

/-- Parsed JSON content of one log file. `malformed` models a file whose
bytes fail `JSON.parse`; `ioError` models `readFileSync` throwing. -/
inductive Content where
  | single (e : LogEntry)
  | array (es : List LogEntry)
  | malformed
  | ioError
deriving DecidableEq, Repr

/-- The log directory: file names with parsed contents, in enumeration
order (`fs.readdirSync`). -/
abbrev Store := List (String × Content)

/-- JavaScript `s.endsWith(suffix)`. -/
def jsEndsWith (s suffix : String) : Bool :=
  suffix.data.isSuffixOf s.data

/-- `logArray = Array.isArray(logs) ? logs : [logs]`, under the per-file
`try`: reading/parsing `malformed`/`ioError` content throws. -/
def toEntries : Content → Except Unit (List LogEntry)
  | .single e => .ok [e]
  | .array es => .ok es
  | .malformed => .error ()
  | .ioError => .error ()

/-- The retention window: `7 * 24 * 60 * 60 * 1000` milliseconds. -/
def retentionMs : Int := 7 * 24 * 60 * 60 * 1000

/-- `logArray.reduce((oldest, current) => ...)`: JS `reduce` without an
initial value starts from the first element; the callback keeps `current`
only when `new Date(current.timestamp) < new Date(oldest.timestamp)`. -/
def jsReduceOldest (head : LogEntry) (rest : List LogEntry) : LogEntry :=
  rest.foldl
    (fun oldest current =>
      if jsLt (parseMs current.timestamp) (parseMs oldest.timestamp) then current
      else oldest)
    head

/-- Per-file deletion decision of `cleanupOldLogs`: only `.json` files are
considered; a throwing read/parse is caught (file kept); an empty array is
kept; otherwise the file is deleted exactly when the `reduce`-selected
oldest entry satisfies `oldestTime < sevenDaysAgo`. -/
def processFileDeleted (now : Int) (f : String × Content) : Bool :=
  if jsEndsWith f.1 ".json" then
    match toEntries f.2 with
    | .error _ => false
    | .ok logArray =>
      match logArray with
      | [] => false
      | e :: es =>
        jsLt (parseMs (jsReduceOldest e es).timestamp) (some (now - retentionMs))
  else false

/-- Return value of `cleanupOldLogs` together with the surviving store. -/
structure CleanupResult where
  store : Store
  success : Bool
  deletedCount : Nat
  deletedFiles : List String
deriving DecidableEq, Repr

/-- `cleanupOldLogs()`: iterates over the directory, deletes each file
whose decision is positive, counts and records deletions in enumeration
order, and reports success (the directory always exists in the model). -/
def cleanupOldLogs (now : Int) (files : Store) : CleanupResult :=
  let deleted := files.filter (fun f => processFileDeleted now f)
  { store := files.filter (fun f => !(processFileDeleted now f))
    success := true
    deletedCount := deleted.length
    deletedFiles := deleted.map (fun f => f.1) }

/-- The accumulation loop of `loadLogsFromFiles`: `.json` files only;
array content is spread, single-object content pushed, a throwing
read/parse caught and skipped. -/
def flattenLogs (files : Store) : List LogEntry :=
  files.foldl
    (fun acc f =>
      if jsEndsWith f.1 ".json" then
        match f.2 with
        | .array es => acc ++ es
        | .single e => acc ++ [e]
        | .malformed => acc
        | .ioError => acc
      else acc)
    []

/-- Stable descending insertion: the incoming element passes every
element it strictly beats (per `jsLt` on the key) and lands after
ties, modelling a stable sort with comparator
`(a, b) => keyOf(b) - keyOf(a)`. -/
def insertByDesc (key : LogEntry → Option Int) (e : LogEntry) :
    List LogEntry → List LogEntry
  | [] => [e]
  | x :: xs =>
    if jsLt (key x) (key e) then e :: x :: xs
    else x :: insertByDesc key e xs

/-- Stable descending sort by `key` (JavaScript `Array.prototype.sort`
is stable; with a consistent comparator any stable sort produces the
same list). -/
def sortByDesc (key : LogEntry → Option Int) (l : List LogEntry) : List LogEntry :=
  l.foldl (fun acc e => insertByDesc key e acc) []

/-- `loadLogsFromFiles()`: flatten every readable `.json` file, then
`allLogs.sort((a, b) => new Date(b.timestamp) - new Date(a.timestamp))`. -/
def loadLogsFromFiles (files : Store) : List LogEntry :=
  sortByDesc (fun e => parseMs e.timestamp) (flattenLogs files)

/-! ## File names and paths -/

/-- The character class `[a-zA-Z0-9_-]` of the sanitization regex. -/
def allowedChar (c : Char) : Bool :=
  (('a' ≤ c && c ≤ 'z') || ('A' ≤ c && c ≤ 'Z') ||
   ('0' ≤ c && c ≤ '9') || c = '_' || c = '-')

/-- `fileName.replace(/[^a-zA-Z0-9_-]/g, '_')`. -/
def sanitize (s : String) : String :=
  String.mk (s.data.map (fun c => if allowedChar c then c else '_'))

/-- Split a character list on `/` (path separator). -/
def splitOnSlash : List Char → List (List Char)
  | [] => [[]]
  | c :: rest =>
    if c = '/' then [] :: splitOnSlash rest
    else
      match splitOnSlash rest with
      | [] => [[c]]
      | s :: ss => (c :: s) :: ss

/-- Resolve `.` and `..` segments the way `path.join` normalises a path
rooted at `/`: empty and `.` segments vanish, `..` pops the previous
segment (or is absorbed at the root). -/
def resolveDots (segs : List (List Char)) : List (List Char) :=
  segs.foldl
    (fun acc seg =>
      if seg = [] || seg = ['.'] then acc
      else if seg = ['.', '.'] then acc.dropLast
      else acc ++ [seg])
    []

/-- Join path segments with `/` separators. -/
def joinSegs : List (List Char) → List Char
  | [] => []
  | [s] => s
  | s :: rest => s ++ '/' :: joinSegs rest

/-- Render an absolute path from its segments. -/
def renderAbs (segs : List (List Char)) : String :=
  String.mk ('/' :: joinSegs segs)

/-- `path.join(dir, seg)` for an absolute, already-normal `dir`:
concatenate with a separator and normalise `.`/`..` segments. -/
def pathJoin (dir seg : String) : String :=
  renderAbs (resolveDots (splitOnSlash (dir.data ++ '/' :: seg.data)))

/-- JavaScript `s.startsWith(pre)` (the security check compares whole
strings, so the list-level prefix test is exact). -/
def jsStartsWith (s pre : String) : Bool :=
  pre.data.isPrefixOf s.data

/-- `path.join(__dirname, 'log')`: the storage root. -/
def logDirPath : String := "/srv/logReader/log"

/-! ## Server state and handlers -/

/-- The server process state: the log directory plus the in-memory
`allLogs` index. -/
structure ServerState where
  store : Store
  allLogs : List LogEntry
deriving DecidableEq, Repr

/-- The `logData` field of a save request body (object or array shape;
both must be accepted). -/
inductive LogData where
  | entry (e : LogEntry)
  | entries (es : List LogEntry)
deriving DecidableEq, Repr

/-- `dataToSave` as file content. -/
def LogData.toContent : LogData → Content
  | .entry e => .single e
  | .entries es => .array es

/-- The entries pushed onto `allLogs` by the save handler
(`push(...dataToSave)` for an array, `push(dataToSave)` otherwise). -/
def LogData.toList : LogData → List LogEntry
  | .entry e => [e]
  | .entries es => es

/-- Response of the save handler, as seen by the caller. -/
structure SaveResponse where
  status : Nat
  error : Option String
  filePath : Option String
  fileName : Option String
deriving DecidableEq, Repr

/-- Look a file up by name. -/
def lookupFile (files : Store) (name : String) : Option Content :=
  (files.find? (fun f => f.1 = name)).map (fun f => f.2)

/-- `fs.writeFileSync(filePath, ...)`: replaces the content if the file
exists, otherwise creates it (appended at the end of the enumeration). -/
def writeStore (files : Store) (name : String) (c : Content) : Store :=
  if files.any (fun f => f.1 = name) then
    files.map (fun f => if f.1 = name then (name, c) else f)
  else files ++ [(name, c)]

/-- `POST /api/logs/save`: validate `logData` and `fileName` (missing or
falsy → 400 before any effect), sanitise the name, overwrite the file,
push the entries onto `allLogs`, re-sort it with the `|| 0` comparator,
then run `cleanupOldLogs()` and answer 200. -/
def saveHandler (now : Int) (st : ServerState)
    (logData : Option LogData) (fileName : Option String) :
    ServerState × SaveResponse :=
  match logData with
  | none =>
    (st, { status := 400, error := some "logData is required",
           filePath := none, fileName := none })
  | some ld =>
    match fileName with
    | none =>
      (st, { status := 400, error := some "fileName is required",
             filePath := none, fileName := none })
    | some fn =>
      if fn = "" then
        (st, { status := 400, error := some "fileName is required",
               filePath := none, fileName := none })
      else
        let name := sanitize fn ++ ".json"
        let store1 := writeStore st.store name ld.toContent
        let logs1 := sortByDesc (fun e => parseMsOrZero e.timestamp)
          (st.allLogs ++ ld.toList)
        let r := cleanupOldLogs now store1
        ({ store := r.store, allLogs := logs1 },
         { status := 200, error := none,
           filePath := some (pathJoin logDirPath name), fileName := some name })

/-- Response of a GET request under `/api/logs`. -/
inductive GetResponse where
  | allLogs (l : List LogEntry)
  | listing (count : Nat) (files : List String)
  | fileContent (c : Content)
  | notFound
  | accessDenied
  | fallthrough
deriving DecidableEq, Repr

/-- `GET /api/logs/:fileName` (the branch taken when the extracted
`fileName` is non-empty and not `list`): sanitise, join, check
containment (403), then 404 or the raw file content. -/
def getFileResponse (st : ServerState) (fileName : String) : GetResponse :=
  let name := sanitize fileName ++ ".json"
  let fp := pathJoin logDirPath name
  if !(jsStartsWith fp logDirPath) then .accessDenied
  else
    match lookupFile st.store name with
    | none => .notFound
    | some c => .fileContent c

/-- Dispatch of `GET /api/logs...`: the exact path answers the index,
`list` answers the directory listing (this route precedes the per-file
route), a non-empty other tail answers the per-file route, an empty tail
falls through to static file serving. `tail` is the part of the path
after `/api/logs/` (`none` models the exact path `/api/logs`). -/
def getApiRoute (st : ServerState) (tail : Option String) : GetResponse :=
  match tail with
  | none => .allLogs st.allLogs
  | some t =>
    if t = "list" then
      let logFiles := (st.store.map (fun f => f.1)).filter
        (fun n => jsEndsWith n ".json")
      .listing logFiles.length logFiles
    else if t = "" then .fallthrough
    else getFileResponse st t

/-- `DELETE /api/logs/:fileName`: sanitise, containment check (403),
404 when absent, otherwise unlink and rebuild `allLogs` wholesale via
`loadLogsFromFiles()`; answers the HTTP status. -/
def deleteHandler (st : ServerState) (fileName : String) :
    ServerState × Nat :=
  let name := sanitize fileName ++ ".json"
  let fp := pathJoin logDirPath name
  if !(jsStartsWith fp logDirPath) then (st, 403)
  else if !(st.store.any (fun f => f.1 = name)) then (st, 404)
  else
    let store1 := st.store.filter (fun f => !(f.1 = name))
    ({ store := store1, allLogs := loadLogsFromFiles store1 }, 200)

/-- `POST /api/logs/cleanup` (and the 24-hour scheduler): run the sweep,
then rebuild `allLogs` from the surviving files. -/
def cleanupEndpoint (now : Int) (st : ServerState) :
    ServerState × CleanupResult :=
  let r := cleanupOldLogs now st.store
  ({ store := r.store, allLogs := loadLogsFromFiles r.store }, r)

/-- Process startup (lines 118–119): `loadLogsFromFiles()` is called
first, `cleanupOldLogs()` second, so the index is built from the
pre-sweep directory. -/
def startupState (now : Int) (files : Store) : ServerState :=
  let logs := loadLogsFromFiles files
  let r := cleanupOldLogs now files
  { store := r.store, allLogs := logs }

/-! ## Derived notions used by the theorems -/

/-- Numeric timestamp of an entry with a valid timestamp (`0` as a
don't-care default for the NaN cases). -/
def entryMs (e : LogEntry) : Int :=
  (parseMs e.timestamp).getD 0

/-- The minimum over the parseable timestamps of `rest`, starting from
`t` (invalid entries are skipped). -/
def validMin (t : Int) (rest : List LogEntry) : Int :=
  rest.foldl
    (fun m e =>
      match parseMs e.timestamp with
      | some u => min m u
      | none => m)
    t

/-- A concrete entry builder for concrete evaluations. -/
def mkEntry (ts : JsTimestamp) (u : String) : LogEntry :=
  { timestamp := ts, userName := u, companyId := "comp", event := "click",
    details := "details", level := "info" }

/-- A sample "current time" (milliseconds). -/
def tNow : Int := 1000000000000

/-! ## Lemmas about the sweep's oldest-entry reduction -/

theorem jsLt_none_right (a : Option Int) : jsLt a none = false := by
  cases a <;> rfl

theorem jsLt_none_left (a : Option Int) : jsLt none a = false := by
  cases a <;> rfl

/-- If the head of the `reduce` has an unparseable timestamp, the
accumulator never changes: every comparison against NaN is false. -/
theorem jsReduceOldest_none_head (head : LogEntry) (rest : List LogEntry)
    (h : parseMs head.timestamp = none) :
    jsReduceOldest head rest = head := by
  induction rest with
  | nil => rfl
  | cons c cs ih =>
    unfold jsReduceOldest at ih ⊢
    simp only [List.foldl_cons, h, jsLt_none_right, if_neg Bool.false_ne_true]
    exact ih

/-- If the head parses, the `reduce` result parses to the minimum over
the parseable timestamps (unparseable entries are skipped because a
NaN comparison is false). -/
theorem jsReduceOldest_some_head (rest : List LogEntry) :
    ∀ (head : LogEntry) (t : Int), parseMs head.timestamp = some t →
      parseMs (jsReduceOldest head rest).timestamp = some (validMin t rest) := by
  induction rest with
  | nil =>
    intro head t h
    simpa [jsReduceOldest, validMin] using h
  | cons c cs ih =>
    intro head t h
    unfold jsReduceOldest validMin
    simp only [List.foldl_cons]
    cases hc : parseMs c.timestamp with
    | none =>
      simp only [h, hc, jsLt_none_left, if_neg Bool.false_ne_true]
      exact ih head t h
    | some u =>
      simp only [h, hc, jsLt]
      by_cases hu : u < t
      · rw [decide_eq_true hu, if_pos rfl]
        have := ih c u hc
        simpa [jsReduceOldest, validMin, min_eq_right (le_of_lt hu)] using this
      · rw [decide_eq_false hu, if_neg Bool.false_ne_true]
        have := ih head t h
        simpa [jsReduceOldest, validMin, min_eq_left (le_of_not_lt hu)] using this

/-- On all-valid tails, `validMin` is the fold of `min` over the numeric
timestamps. -/
theorem validMin_eq_foldl (rest : List LogEntry) :
    ∀ t : Int, (∀ e ∈ rest, (parseMs e.timestamp).isSome = true) →
      validMin t rest = (rest.map entryMs).foldl min t := by
  induction rest with
  | nil => intro t _; rfl
  | cons c cs ih =>
    intro t hv
    have hc : (parseMs c.timestamp).isSome = true := hv c (List.mem_cons_self c cs)
    obtain ⟨u, hu⟩ := Option.isSome_iff_exists.mp hc
    have hcs : ∀ e ∈ cs, (parseMs e.timestamp).isSome = true :=
      fun e he => hv e (List.mem_cons_of_mem c he)
    unfold validMin
    simp only [List.foldl_cons, hu, List.map_cons]
    have : entryMs c = u := by simp [entryMs, hu]
    rw [this]
    exact ih (min t u) hcs

/-- Dropping the unparseable entries of the tail does not change
`validMin`. -/
theorem validMin_filter_valid (rest : List LogEntry) :
    ∀ t : Int,
      validMin t (rest.filter (fun e => (parseMs e.timestamp).isSome)) =
        validMin t rest := by
  induction rest with
  | nil => intro t; rfl
  | cons c cs ih =>
    intro t
    cases hc : parseMs c.timestamp with
    | none =>
      have : (parseMs c.timestamp).isSome = false := by simp [hc]
      simp only [List.filter_cons, this, Bool.false_eq_true, if_neg]
      unfold validMin
      simp only [List.foldl_cons, hc]
      exact ih t
    | some u =>
      have hs : (parseMs c.timestamp).isSome = true := by simp [hc]
      have hfil : (c :: cs).filter (fun e => (parseMs e.timestamp).isSome)
          = c :: cs.filter (fun e => (parseMs e.timestamp).isSome) := by
        simp [List.filter_cons, hs]
      rw [hfil]
      unfold validMin
      simp only [List.foldl_cons, hc]
      exact ih (min t u)

/-! ## Lemmas about the stable descending sort -/

/-- `insertByDesc` inserts the element somewhere: the result is a
permutation of consing it. -/
theorem insertByDesc_perm (key : LogEntry → Option Int) (e : LogEntry) :
    ∀ l : List LogEntry, (insertByDesc key e l).Perm (e :: l) := by
  intro l
  induction l with
  | nil => exact List.Perm.refl _
  | cons x xs ih =>
    unfold insertByDesc
    by_cases hc : jsLt (key x) (key e) = true
    · rw [if_pos hc]
    · rw [if_neg hc]
      exact (ih.cons x).trans (List.Perm.swap e x xs)

theorem mem_insertByDesc (key : LogEntry → Option Int) (e y : LogEntry)
    (l : List LogEntry) (hy : y ∈ insertByDesc key e l) : y = e ∨ y ∈ l := by
  have := (insertByDesc_perm key e l).mem_iff.mp hy
  exact List.mem_cons.mp this

/-- The pairwise order maintained by the insertion: a later element never
strictly beats an earlier one under `jsLt` on the key (NaN keys compare
false both ways, so they sit where the comparator leaves them). -/
theorem insertByDesc_pairwise (key : LogEntry → Option Int) (e : LogEntry)
    (l : List LogEntry)
    (h : l.Pairwise (fun a b => jsLt (key a) (key b) = false)) :
    (insertByDesc key e l).Pairwise (fun a b => jsLt (key a) (key b) = false) := by
  induction l with
  | nil => simp [insertByDesc]
  | cons x xs ih =>
    rcases List.pairwise_cons.mp h with ⟨hx, hxs⟩
    unfold insertByDesc
    by_cases hc : jsLt (key x) (key e) = true
    · rw [if_pos hc]
      have hkx : ∃ a, key x = some a := by
        cases hkx : key x with
        | none => rw [hkx, jsLt_none_left] at hc; exact absurd hc Bool.false_ne_true
        | some a => exact ⟨a, rfl⟩
      have hke : ∃ b, key e = some b := by
        cases hke : key e with
        | none => rw [hke, jsLt_none_right] at hc; exact absurd hc Bool.false_ne_true
        | some b => exact ⟨b, rfl⟩
      obtain ⟨a, ha⟩ := hkx
      obtain ⟨b, hb⟩ := hke
      have hab : a < b := by
        rw [ha, hb] at hc
        simpa [jsLt] using hc
      refine List.pairwise_cons.mpr ⟨?_, h⟩
      intro y hy
      rcases List.mem_cons.mp hy with rfl | hy'
      · rw [ha, hb, jsLt]
        simp [not_lt_of_gt hab, le_of_lt]
      · have hxy := hx y hy'
        cases hky : key y with
        | none =>
          rw [hb]
          exact jsLt_none_right _
        | some cY =>
          rw [ha, hky] at hxy
          have hac : ¬ a < cY := by simpa [jsLt] using hxy
          have hbc : ¬ b < cY := by omega
          rw [hb]
          simp [jsLt, hbc]
    · rw [if_neg hc]
      refine List.pairwise_cons.mpr ⟨?_, ih hxs⟩
      intro y hy
      rcases mem_insertByDesc key e y xs hy with rfl | hy'
      · exact Bool.eq_false_iff.mpr (fun hcc => hc hcc)
      · exact hx y hy'

/-- Auxiliary fold invariant for `sortByDesc`. -/
theorem sortByDesc_foldl_perm (key : LogEntry → Option Int) :
    ∀ (l acc : List LogEntry),
      (l.foldl (fun acc e => insertByDesc key e acc) acc).Perm (acc ++ l) := by
  intro l
  induction l with
  | nil => intro acc; simp
  | cons e l ih =>
    intro acc
    have h1 := ih (insertByDesc key e acc)
    have h2 : (insertByDesc key e acc ++ l).Perm (acc ++ e :: l) := by
      have h3 : (insertByDesc key e acc ++ l).Perm ((e :: acc) ++ l) :=
        (insertByDesc_perm key e acc).append_right l
      exact h3.trans List.perm_middle.symm
    simpa [List.foldl_cons] using h1.trans h2

/-- The sort is a permutation of its input. -/
theorem sortByDesc_perm (key : LogEntry → Option Int) (l : List LogEntry) :
    (sortByDesc key l).Perm l := by
  simpa using sortByDesc_foldl_perm key l []

/-- Auxiliary fold invariant: sortedness. -/
theorem sortByDesc_foldl_pairwise (key : LogEntry → Option Int) :
    ∀ (l acc : List LogEntry),
      acc.Pairwise (fun a b => jsLt (key a) (key b) = false) →
      (l.foldl (fun acc e => insertByDesc key e acc) acc).Pairwise
        (fun a b => jsLt (key a) (key b) = false) := by
  intro l
  induction l with
  | nil => intro acc h; simpa using h
  | cons e l ih =>
    intro acc h
    simpa using ih (insertByDesc key e acc) (insertByDesc_pairwise key e acc h)

/-- The sort's output is pairwise ordered: no later element strictly
beats an earlier one under the comparator. -/
theorem sortByDesc_pairwise (key : LogEntry → Option Int) (l : List LogEntry) :
    (sortByDesc key l).Pairwise (fun a b => jsLt (key a) (key b) = false) :=
  sortByDesc_foldl_pairwise key l [] (List.Pairwise.nil)

/-- The Boolean test "the key equals the (valid) value `t`". -/
def pKey (key : LogEntry → Option Int) (t : Int) (x : LogEntry) : Bool :=
  key x == some t

/-- Inserting into an already-ordered accumulator keeps each key-class in
order: the new element lands after all existing elements of equal key. -/
theorem filter_insertByDesc (key : LogEntry → Option Int) (t : Int)
    (e : LogEntry) :
    ∀ acc : List LogEntry,
      acc.Pairwise (fun a b => jsLt (key a) (key b) = false) →
      (insertByDesc key e acc).filter (pKey key t) =
        acc.filter (pKey key t) ++ (if pKey key t e then [e] else []) := by
  intro acc
  induction acc with
  | nil =>
    intro _
    simp [insertByDesc, List.filter_cons]
  | cons x xs ih =>
    intro hpair
    rcases List.pairwise_cons.mp hpair with ⟨hx, hxs⟩
    unfold insertByDesc
    by_cases hc : jsLt (key x) (key e) = true
    · rw [if_pos hc]
      by_cases hpe : pKey key t e = true
      · have hke : key e = some t := by simpa [pKey] using hpe
        have hnil : (x :: xs).filter (pKey key t) = [] := by
          apply List.filter_eq_nil_iff.mpr
          intro y hy
          rcases List.mem_cons.mp hy with rfl | hy'
          · cases hky : key y with
            | none => simp [pKey, hky]
            | some a =>
              rw [hky, hke, jsLt] at hc
              have : a < t := by simpa using hc
              simp [pKey, hky]
              omega
          · have hxy := hx y hy'
            cases hky : key y with
            | none => simp [pKey, hky]
            | some cY =>
              cases hkx : key x with
              | none => rw [hkx, jsLt_none_left] at hc; exact absurd hc Bool.false_ne_true
              | some a =>
                rw [hkx, hky] at hxy
                rw [hkx, hke, jsLt] at hc
                have h1 : a < t := by simpa using hc
                have h2 : ¬ a < cY := by simpa [jsLt] using hxy
                simp [pKey, hky]
                omega
        rw [List.filter_cons, if_pos hpe, hnil]
        simp [hpe]
      · have hpe' : pKey key t e = false := Bool.eq_false_iff.mpr hpe
        simp [List.filter_cons, hpe']
    · rw [if_neg hc]
      rw [List.filter_cons, List.filter_cons]
      by_cases hpx : pKey key t x = true
      · rw [if_pos hpx, if_pos hpx, ih hxs, List.cons_append]
      · rw [if_neg hpx, if_neg hpx, ih hxs]

/-- Fold invariant: the sort preserves each key-class as a subsequence in
input order. -/
theorem filter_sortByDesc_foldl (key : LogEntry → Option Int) (t : Int) :
    ∀ (l acc : List LogEntry),
      acc.Pairwise (fun a b => jsLt (key a) (key b) = false) →
      (l.foldl (fun acc e => insertByDesc key e acc) acc).filter (pKey key t) =
        acc.filter (pKey key t) ++ l.filter (pKey key t) := by
  intro l
  induction l with
  | nil => intro acc _; simp
  | cons e l ih =>
    intro acc hpair
    have h1 := ih (insertByDesc key e acc) (insertByDesc_pairwise key e acc hpair)
    rw [List.foldl_cons, h1, filter_insertByDesc key t e acc hpair,
      List.filter_cons, List.append_assoc]
    by_cases hpe : pKey key t e = true
    · rw [if_pos hpe, if_pos hpe, List.singleton_append]
    · rw [if_neg hpe, if_neg hpe, List.nil_append]

/-- Stability: sorting preserves the relative order of entries with equal
keys (the filter of each key-class is unchanged). -/
theorem filter_sortByDesc (key : LogEntry → Option Int) (t : Int)
    (l : List LogEntry) :
    (sortByDesc key l).filter (pKey key t) = l.filter (pKey key t) := by
  have := filter_sortByDesc_foldl key t l [] List.Pairwise.nil
  simpa [sortByDesc] using this

/-! ## Lemmas about sanitization and path containment -/

theorem allowedChar_underscore : allowedChar '_' = true := by decide

theorem allowedChar_slash : allowedChar '/' = false := by decide

theorem allowedChar_dot : allowedChar '.' = false := by decide

/-- Every character surviving sanitization is in `[a-zA-Z0-9_-]`. -/
theorem sanitize_allowed (s : String) :
    ∀ c ∈ (sanitize s).data, allowedChar c = true := by
  intro c hc
  simp only [sanitize, List.mem_map] at hc
  obtain ⟨a, _, ha⟩ := hc
  by_cases h : allowedChar a = true
  · rw [if_pos h] at ha; rw [← ha]; exact h
  · rw [if_neg h] at ha; rw [← ha]; exact allowedChar_underscore

theorem sanitize_no_slash (s : String) : ∀ c ∈ (sanitize s).data, c ≠ '/' := by
  intro c hc h
  have ha := sanitize_allowed s c hc
  rw [h, allowedChar_slash] at ha
  exact Bool.false_ne_true ha

/-- The splitter never returns an empty list of segments. -/
theorem splitOnSlash_ne_nil (l : List Char) : splitOnSlash l ≠ [] := by
  induction l with
  | nil => simp [splitOnSlash]
  | cons c rest ih =>
    unfold splitOnSlash
    by_cases h : c = '/'
    · rw [if_pos h]; simp
    · rw [if_neg h]
      cases hs : splitOnSlash rest with
      | nil => exact absurd hs ih
      | cons s ss => simp

/-- A slash-free character list is a single segment. -/
theorem splitOnSlash_no_slash (l : List Char) (h : ∀ c ∈ l, c ≠ '/') :
    splitOnSlash l = [l] := by
  induction l with
  | nil => rfl
  | cons c rest ih =>
    unfold splitOnSlash
    rw [if_neg (h c (List.mem_cons_self c rest))]
    rw [ih (fun x hx => h x (List.mem_cons_of_mem c hx))]

/-- Splitting distributes over a separator. -/
theorem splitOnSlash_append (a b : List Char) :
    splitOnSlash (a ++ '/' :: b) = splitOnSlash a ++ splitOnSlash b := by
  induction a with
  | nil => simp [splitOnSlash]
  | cons c rest ih =>
    by_cases h : c = '/'
    · simp only [List.cons_append, splitOnSlash, if_pos h]
      simp only [List.cons.injEq, true_and]
      exact ih
    · simp only [List.cons_append, splitOnSlash, if_neg h]
      cases hs : splitOnSlash rest with
      | nil => exact absurd hs (splitOnSlash_ne_nil rest)
      | cons s ss =>
        simp only [List.append_eq]
        rw [ih, hs]
        simp

/-- Appending one well-formed segment commutes with dot resolution. -/
theorem resolveDots_append (segs : List (List Char)) (seg : List Char)
    (h0 : seg ≠ []) (h1 : seg ≠ ['.']) (h2 : seg ≠ ['.', '.']) :
    resolveDots (segs ++ [seg]) = resolveDots segs ++ [seg] := by
  unfold resolveDots
  rw [List.foldl_append]
  simp only [List.foldl_cons, List.foldl_nil]
  rw [if_neg (by simp [h0, h1]), if_neg (by simp [h2])]

/-- Joining after appending a segment. -/
theorem joinSegs_append (a : List (List Char)) (s : List Char) (ha : a ≠ []) :
    joinSegs (a ++ [s]) = joinSegs a ++ '/' :: s := by
  induction a with
  | nil => exact absurd rfl ha
  | cons x rest ih =>
    cases rest with
    | nil => rfl
    | cons y ys =>
      have := ih (by simp)
      simp only [List.cons_append]
      unfold joinSegs
      rw [List.append_assoc]
      congr 1
      simpa using this

/-- The `.json`-suffixed sanitized name, as a character list. -/
theorem sanitized_name_data (fn : String) :
    (sanitize fn ++ ".json").data = (sanitize fn).data ++ ['.', 'j', 's', 'o', 'n'] := by
  rw [String.data_append]

/-- The resolved path of a sanitized request always lies directly inside
the storage root: the security check of the GET/DELETE handlers is
satisfied by every input. -/
theorem pathJoin_sanitized_data (fn : String) :
    (pathJoin logDirPath (sanitize fn ++ ".json")).data =
      logDirPath.data ++ '/' :: (sanitize fn ++ ".json").data := by
  have hseg : ∀ c ∈ (sanitize fn ++ ".json").data, c ≠ '/' := by
    rw [sanitized_name_data]
    intro c hc
    rcases List.mem_append.mp hc with h | h
    · exact sanitize_no_slash fn c h
    · intro hcc
      subst hcc
      exact absurd h (by decide)
  have hsplit : splitOnSlash (logDirPath.data ++ '/' :: (sanitize fn ++ ".json").data)
      = splitOnSlash logDirPath.data ++ [(sanitize fn ++ ".json").data] := by
    rw [splitOnSlash_append, splitOnSlash_no_slash _ hseg]
  have h0 : (sanitize fn ++ ".json").data ≠ [] := by
    rw [sanitized_name_data]
    intro h
    have := congrArg List.length h
    simp at this
  have h1 : (sanitize fn ++ ".json").data ≠ ['.'] := by
    rw [sanitized_name_data]
    intro h
    have := congrArg List.length h
    simp at this
  have h2 : (sanitize fn ++ ".json").data ≠ ['.', '.'] := by
    rw [sanitized_name_data]
    intro h
    have := congrArg List.length h
    simp at this
  unfold pathJoin
  rw [hsplit]
  have hdir : splitOnSlash logDirPath.data =
      [[], ['s', 'r', 'v'], ['l', 'o', 'g', 'R', 'e', 'a', 'd', 'e', 'r'],
       ['l', 'o', 'g']] := by decide
  rw [hdir, resolveDots_append _ _ h0 h1 h2]
  have hres : resolveDots
      [[], ['s', 'r', 'v'], ['l', 'o', 'g', 'R', 'e', 'a', 'd', 'e', 'r'],
       ['l', 'o', 'g']] =
      [['s', 'r', 'v'], ['l', 'o', 'g', 'R', 'e', 'a', 'd', 'e', 'r'],
       ['l', 'o', 'g']] := by decide
  rw [hres, renderAbs, joinSegs_append _ _ (by simp)]
  show '/' :: (joinSegs _ ++ '/' :: _) = _
  have hjoin : '/' :: joinSegs
      [['s', 'r', 'v'], ['l', 'o', 'g', 'R', 'e', 'a', 'd', 'e', 'r'],
       ['l', 'o', 'g']] = logDirPath.data := by decide
  rw [← hjoin]
  rfl

/-- The containment check `filePath.startsWith(logDir)` of the GET and
DELETE handlers holds for every request. -/
theorem isPrefixOf_append_self (l t : List Char) : l.isPrefixOf (l ++ t) = true := by
  induction l with
  | nil => simp [List.isPrefixOf]
  | cons c cs ih => simp [List.isPrefixOf, ih]

theorem sanitizedPath_inside (fn : String) :
    jsStartsWith (pathJoin logDirPath (sanitize fn ++ ".json")) logDirPath = true := by
  unfold jsStartsWith
  rw [pathJoin_sanitized_data]
  exact isPrefixOf_append_self logDirPath.data ('/' :: (sanitize fn ++ ".json").data)

/-- Sanity check that the path model can express an escape: an
unsanitized traversal segment would leave the storage root. -/
theorem pathJoin_escape_example :
    jsStartsWith (pathJoin logDirPath "../x.json") logDirPath = false := by
  decide

/-! ## Lemmas about the file store -/

theorem lookup_replace (fs : Store) (n : String) (c : Content)
    (h : fs.any (fun f => f.1 = n) = true) :
    lookupFile (fs.map (fun f => if f.1 = n then (n, c) else f)) n = some c := by
  induction fs with
  | nil => simp at h
  | cons f rest ih =>
    by_cases hf : f.1 = n
    · simp [lookupFile, List.find?_cons_of_pos, hf]
    · simp only [List.any_cons] at h
      have h' : rest.any (fun f => f.1 = n) = true := by
        rcases Bool.or_eq_true_iff.mp h with h1 | h1
        · exact absurd (of_decide_eq_true h1) hf
        · exact h1
      simp only [List.map_cons, if_neg hf]
      have hskip : lookupFile
          (f :: rest.map (fun f => if f.1 = n then (n, c) else f)) n =
          lookupFile (rest.map (fun f => if f.1 = n then (n, c) else f)) n := by
        simp [lookupFile, List.find?_cons_of_neg, hf]
      rw [hskip]
      exact ih h'

theorem lookup_append_self (files : Store) (n : String) (c : Content)
    (h : files.any (fun f => f.1 = n) = false) :
    lookupFile (files ++ [(n, c)]) n = some c := by
  induction files with
  | nil => simp [lookupFile]
  | cons f rest ih =>
    simp only [List.any_cons, Bool.or_eq_false_iff] at h
    obtain ⟨h1, h2⟩ := h
    have hf : ¬ f.1 = n := by simpa using h1
    have hskip : lookupFile ((f :: rest) ++ [(n, c)]) n =
        lookupFile (rest ++ [(n, c)]) n := by
      simp [lookupFile, List.find?_cons_of_neg, hf]
    rw [hskip]
    exact ih h2

/-- `writeFileSync` semantics at the lookup level: after a write, the
written name maps to the written content. -/
theorem lookupFile_writeStore (files : Store) (n : String) (c : Content) :
    lookupFile (writeStore files n c) n = some c := by
  unfold writeStore
  by_cases h : files.any (fun f => f.1 = n) = true
  · rw [if_pos h]
    exact lookup_replace files n c h
  · rw [if_neg h]
    exact lookup_append_self files n c (Bool.eq_false_iff.mpr h)

/-- A kept file is still found after filtering (deletion of other
files does not affect its lookup). -/
theorem lookupFile_filter (l : Store) (p : String × Content → Bool)
    (n : String) (c : Content)
    (hl : lookupFile l n = some c) (hp : p (n, c) = true) :
    lookupFile (l.filter p) n = some c := by
  induction l with
  | nil => simp [lookupFile] at hl
  | cons f rest ih =>
    by_cases hf : f.1 = n
    · have hfind : lookupFile (f :: rest) n = some f.2 := by
        simp [lookupFile, List.find?_cons_of_pos, hf]
      have hc : f.2 = c := by
        rw [hfind] at hl
        exact Option.some.inj hl
      have hfc : f = (n, c) := by
        cases f
        simp_all
      subst hfc
      rw [List.filter_cons, if_pos hp]
      simp [lookupFile, List.find?_cons_of_pos]
    · have hl' : lookupFile rest n = some c := by
        have hskip : lookupFile (f :: rest) n = lookupFile rest n := by
          simp [lookupFile, List.find?_cons_of_neg, hf]
        rw [← hskip]
        exact hl
      rw [List.filter_cons]
      by_cases hpf : p f = true
      · rw [if_pos hpf]
        have hskip : lookupFile (f :: rest.filter p) n =
            lookupFile (rest.filter p) n := by
          simp [lookupFile, List.find?_cons_of_neg, hf]
        rw [hskip]
        exact ih hl'
      · rw [if_neg hpf]
        exact ih hl'

/-! ## Helper lemmas about the per-file sweep decision -/

theorem processFileDeleted_array (now : Int) (fname : String)
    (hjson : jsEndsWith fname ".json" = true) (e : LogEntry)
    (es : List LogEntry) :
    processFileDeleted now (fname, Content.array (e :: es)) =
      jsLt (parseMs (jsReduceOldest e es).timestamp) (some (now - retentionMs)) := by
  simp [processFileDeleted, hjson, toEntries]

theorem processFileDeleted_single (now : Int) (fname : String)
    (hjson : jsEndsWith fname ".json" = true) (e : LogEntry) :
    processFileDeleted now (fname, Content.single e) =
      jsLt (parseMs e.timestamp) (some (now - retentionMs)) := by
  simp [processFileDeleted, hjson, toEntries, jsReduceOldest]

theorem processFileDeleted_nil_array (now : Int) (fname : String) :
    processFileDeleted now (fname, Content.array []) = false := by
  simp [processFileDeleted, toEntries]

theorem processFileDeleted_malformed (now : Int) (fname : String) :
    processFileDeleted now (fname, Content.malformed) = false := by
  simp [processFileDeleted, toEntries]

theorem processFileDeleted_ioError (now : Int) (fname : String) :
    processFileDeleted now (fname, Content.ioError) = false := by
  simp [processFileDeleted, toEntries]

theorem cleanupOldLogs_singleton (now : Int) (f : String × Content) :
    (cleanupOldLogs now [f]).store =
      if processFileDeleted now f = true then [] else [f] := by
  by_cases h : processFileDeleted now f = true
  · simp [cleanupOldLogs, List.filter_cons, h]
  · have h' : processFileDeleted now f = false := Bool.eq_false_iff.mpr h
    simp [cleanupOldLogs, List.filter_cons, h']

/-! ## Concrete entries for witnesses and counterexamples -/

/-- A recent entry (1 second before the sample clock). -/
def eRecent : LogEntry := mkEntry (.valid (tNow - 1000)) "recent"

/-- A second distinct recent entry. -/
def eRecent2 : LogEntry := mkEntry (.valid (tNow - 2000)) "recent2"

/-- An entry at the epoch, far older than the 7-day window. -/
def eAncient : LogEntry := mkEntry (.valid 0) "ancient"

/-- An entry whose timestamp does not parse. -/
def eNoTs : LogEntry := mkEntry .invalid "unparseable"

/-- An entry exactly one second older than the retention cutoff. -/
def eJustOld : LogEntry := mkEntry (.valid (tNow - retentionMs - 1000)) "boundary-old"

/-- An entry exactly one second newer than the retention cutoff. -/
def eJustNew : LogEntry := mkEntry (.valid (tNow - retentionMs + 1000)) "boundary-new"

/-! ## The claims -/

/-- C1: for every log file with at least one entry (all timestamps
parseable), a sweep deletes the whole file iff the minimum timestamp is
strictly older than `now` minus 7 days; a single entry one second older
than the cutoff is deleted, one second newer is retained; an empty file
is left untouched. -/
theorem claim_C1 (now : Int) (fname : String)
    (hjson : jsEndsWith fname ".json" = true)
    (e : LogEntry) (es : List LogEntry)
    (hv : ∀ x ∈ e :: es, (parseMs x.timestamp).isSome = true) :
    (processFileDeleted now (fname, Content.array (e :: es)) = true ↔
      (es.map entryMs).foldl min (entryMs e) < now - retentionMs)
    ∧ ((cleanupOldLogs now [(fname, Content.array (e :: es))]).store =
        if (es.map entryMs).foldl min (entryMs e) < now - retentionMs then []
        else [(fname, Content.array (e :: es))])
    ∧ (∀ x : LogEntry, parseMs x.timestamp = some (now - retentionMs - 1000) →
        processFileDeleted now (fname, Content.single x) = true)
    ∧ (∀ x : LogEntry, parseMs x.timestamp = some (now - retentionMs + 1000) →
        processFileDeleted now (fname, Content.single x) = false)
    ∧ (cleanupOldLogs now [(fname, Content.array [])]).store =
        [(fname, Content.array [])] := by
  obtain ⟨t, ht⟩ := Option.isSome_iff_exists.mp (hv e (List.mem_cons_self e es))
  have hvt : ∀ x ∈ es, (parseMs x.timestamp).isSome = true :=
    fun x hx => hv x (List.mem_cons_of_mem e hx)
  have hmin : parseMs (jsReduceOldest e es).timestamp =
      some ((es.map entryMs).foldl min (entryMs e)) := by
    rw [jsReduceOldest_some_head es e t ht, validMin_eq_foldl es t hvt]
    have : entryMs e = t := by simp [entryMs, ht]
    rw [this]
  have hiff : processFileDeleted now (fname, Content.array (e :: es)) = true ↔
      (es.map entryMs).foldl min (entryMs e) < now - retentionMs := by
    rw [processFileDeleted_array now fname hjson, hmin]
    simp [jsLt]
  refine ⟨hiff, ?_, ?_, ?_, ?_⟩
  · rw [cleanupOldLogs_singleton]
    by_cases hm : (es.map entryMs).foldl min (entryMs e) < now - retentionMs
    · rw [if_pos (hiff.mpr hm), if_pos hm]
    · rw [if_neg (fun hdel => hm (hiff.mp hdel)), if_neg hm]
  · intro x hx
    rw [processFileDeleted_single now fname hjson, hx]
    simp [jsLt]
  · intro x hx
    rw [processFileDeleted_single now fname hjson, hx]
    simp [jsLt]
  · rw [cleanupOldLogs_singleton, if_neg]
    rw [processFileDeleted_nil_array]
    exact Bool.false_ne_true

/-- Witness for C1 at a concrete file: hypotheses hold and the boundary
entry one second past the cutoff is deleted. -/
theorem claim_C1_witness :
    (∀ x ∈ eAncient :: [eRecent], (parseMs x.timestamp).isSome = true) ∧
    processFileDeleted tNow ("app.json", Content.single eJustOld) = true :=
  ⟨by decide,
    (claim_C1 tNow "app.json" (by decide) eAncient [eRecent] (by decide)).2.2.1
      eJustOld rfl⟩

/-- C3 counterexample: an unparseable entry in first position suppresses
the deletion that the ancient entry alone would trigger — the `reduce`
accumulator sticks to the NaN entry, so the file is retained. -/
theorem counterexample_C3 :
    processFileDeleted tNow ("app.json", Content.array [eNoTs, eAncient]) = false
    ∧ processFileDeleted tNow ("app.json", Content.array [eAncient]) = true := by
  decide

/-- C3 (amended): a file all of whose entries are unparseable is never
deleted; a file whose FIRST entry is unparseable is never deleted (even
when later entries are genuinely old — this is where the original claim
fails); and when the first entry parses, the unparseable entries of the
tail have no effect on the decision. -/
theorem claim_C3_amended (now : Int) (fname : String)
    (hjson : jsEndsWith fname ".json" = true) :
    (∀ es : List LogEntry, (∀ x ∈ es, parseMs x.timestamp = none) →
      processFileDeleted now (fname, Content.array es) = false)
    ∧ (∀ (e : LogEntry) (es : List LogEntry), parseMs e.timestamp = none →
      processFileDeleted now (fname, Content.array (e :: es)) = false)
    ∧ (∀ (e : LogEntry) (es : List LogEntry), (parseMs e.timestamp).isSome = true →
      processFileDeleted now (fname, Content.array (e :: es)) =
        processFileDeleted now (fname,
          Content.array (e :: es.filter (fun x => (parseMs x.timestamp).isSome)))) := by
  have hhead : ∀ (e : LogEntry) (es : List LogEntry), parseMs e.timestamp = none →
      processFileDeleted now (fname, Content.array (e :: es)) = false := by
    intro e es hnone
    rw [processFileDeleted_array now fname hjson,
      jsReduceOldest_none_head e es hnone, hnone, jsLt_none_left]
  refine ⟨?_, hhead, ?_⟩
  · intro es hall
    cases es with
    | nil => exact processFileDeleted_nil_array now fname
    | cons e es' => exact hhead e es' (hall e (List.mem_cons_self e es'))
  · intro e es hsome
    obtain ⟨t, ht⟩ := Option.isSome_iff_exists.mp hsome
    rw [processFileDeleted_array now fname hjson,
      processFileDeleted_array now fname hjson,
      jsReduceOldest_some_head es e t ht,
      jsReduceOldest_some_head (es.filter fun x => (parseMs x.timestamp).isSome) e t ht,
      validMin_filter_valid es t]

/-- Witness for C3 (amended): a lone unparseable entry never forces
deletion. -/
theorem claim_C3_amended_witness :
    (jsEndsWith "app.json" ".json" = true) ∧
    processFileDeleted tNow ("app.json", Content.array [eNoTs]) = false :=
  ⟨by decide, (claim_C3_amended tNow "app.json" (by decide)).2.1 eNoTs [] rfl⟩

/-- C5: a save request with `logData` missing, or with `fileName`
missing, gets a 400 with an error body and has no effect at all: the
returned state (disk store and in-memory index) is exactly the input
state. -/
theorem claim_C5 (now : Int) (st : ServerState) (fnOpt : Option String)
    (ld : LogData) :
    saveHandler now st none fnOpt =
      (st, { status := 400, error := some "logData is required",
             filePath := none, fileName := none })
    ∧ saveHandler now st (some ld) none =
      (st, { status := 400, error := some "fileName is required",
             filePath := none, fileName := none }) :=
  ⟨rfl, rfl⟩

/-- C7: a file whose read/parse throws (malformed JSON or an I/O error)
is skipped by the sweep: every other file, before or after it, is still
deleted or retained exactly per the retention rule, the sweep still
reports success, and a save request served while such a file exists
still answers 200 (the failure is never propagated to the API caller). -/
theorem claim_C7 (now : Int) (pre post : Store) (bname : String)
    (L : List LogEntry) (ld : LogData) :
    ((cleanupOldLogs now (pre ++ (bname, Content.malformed) :: post)).store =
      (cleanupOldLogs now pre).store ++ (bname, Content.malformed) ::
        (cleanupOldLogs now post).store)
    ∧ ((cleanupOldLogs now (pre ++ (bname, Content.malformed) :: post)).deletedFiles =
      (cleanupOldLogs now pre).deletedFiles ++ (cleanupOldLogs now post).deletedFiles)
    ∧ ((cleanupOldLogs now (pre ++ (bname, Content.ioError) :: post)).store =
      (cleanupOldLogs now pre).store ++ (bname, Content.ioError) ::
        (cleanupOldLogs now post).store)
    ∧ ((cleanupOldLogs now (pre ++ (bname, Content.ioError) :: post)).success = true)
    ∧ ((saveHandler now
          { store := pre ++ (bname, Content.malformed) :: post, allLogs := L }
          (some ld) (some "stream1")).2.status = 200) := by
  have hne : ("stream1" : String) ≠ "" := by decide
  refine ⟨?_, ?_, ?_, rfl, ?_⟩
  · simp [cleanupOldLogs, List.filter_append, List.filter_cons,
      processFileDeleted_malformed]
  · simp [cleanupOldLogs, List.filter_append, List.filter_cons,
      processFileDeleted_malformed]
  · simp [cleanupOldLogs, List.filter_append, List.filter_cons,
      processFileDeleted_ioError]
  · simp [saveHandler, hne]

/-- C4 counterexample: the traversal name `../../etc/passwd` is NOT
rejected with 403/AccessDeniedError — its sanitized form stays inside
the storage root, so the GET handler answers 404 (file absent) and the
DELETE handler likewise. -/
theorem counterexample_C4 :
    getFileResponse { store := [], allLogs := [] } "../../etc/passwd" =
      GetResponse.notFound
    ∧ GetResponse.notFound ≠ GetResponse.accessDenied
    ∧ (deleteHandler { store := [], allLogs := [] } "../../etc/passwd").2 = 404 := by
  refine ⟨by decide, by decide, by decide⟩

/-- C4 (amended): no request can make the sanitized path resolve outside
the storage root, so no filesystem access outside the root ever occurs;
but the operations do not reject traversal names with 403 — the request
proceeds under the sanitized in-root name (404 when absent). -/
theorem claim_C4_amended (fn : String) (st : ServerState) :
    jsStartsWith (pathJoin logDirPath (sanitize fn ++ ".json")) logDirPath = true
    ∧ getFileResponse st fn ≠ GetResponse.accessDenied
    ∧ (deleteHandler st fn).2 ≠ 403
    ∧ getFileResponse { store := [], allLogs := [] } "../../etc/passwd" =
        GetResponse.notFound := by
  have h := sanitizedPath_inside fn
  refine ⟨h, ?_, ?_, by decide⟩
  · simp only [getFileResponse, h]
    cases hl : lookupFile st.store (sanitize fn ++ ".json") <;> simp [hl]
  · simp only [deleteHandler, h]
    by_cases he : st.store.any (fun f => f.1 = sanitize fn ++ ".json") = true <;>
      simp [he]

/-- C10: sanitization confines every request to the log directory: every
character of a sanitized name is in `[A-Za-z0-9_-]`, the joined path
always starts with the log directory, the 403 branches of the GET and
DELETE handlers can never be taken, and the save handler's write path
(which has no containment check) is always inside the log directory. -/
theorem claim_C10 (fn : String) (st : ServerState) (now : Int) (ld : LogData) :
    (∀ c ∈ (sanitize fn).data, allowedChar c = true)
    ∧ jsStartsWith (pathJoin logDirPath (sanitize fn ++ ".json")) logDirPath = true
    ∧ getFileResponse st fn ≠ GetResponse.accessDenied
    ∧ (deleteHandler st fn).2 ≠ 403
    ∧ ((saveHandler now st (some ld) (some fn)).2.filePath).all
        (fun p => jsStartsWith p logDirPath) = true := by
  have h := sanitizedPath_inside fn
  refine ⟨sanitize_allowed fn, h, ?_, ?_, ?_⟩
  · simp only [getFileResponse, h]
    cases hl : lookupFile st.store (sanitize fn ++ ".json") <;> simp [hl]
  · simp only [deleteHandler, h]
    by_cases he : st.store.any (fun f => f.1 = sanitize fn ++ ".json") = true <;>
      simp [he]
  · by_cases hfn : fn = ""
    · simp [saveHandler, hfn]
    · simp [saveHandler, hfn, Option.all, h]

/-- The state reached from a one-file store by overwriting that file via
the save endpoint (used to exhibit the stale-index behaviour). -/
def c2State : ServerState :=
  (saveHandler tNow
    { store := [("a.json", Content.array [eRecent])],
      allLogs := loadLogsFromFiles [("a.json", Content.array [eRecent])] }
    (some (.entries [eRecent2])) (some "a")).1

/-- C2 counterexample: after a successful save that overwrites `a.json`,
the overwritten file's old entry is still in the in-memory index even
though it is on no disk file — the save handler patches the index
incrementally (push + sort) instead of rebuilding it from the store. -/
theorem counterexample_C2 :
    eRecent ∈ c2State.allLogs
    ∧ lookupFile c2State.store "a.json" = some (Content.array [eRecent2])
    ∧ eRecent ∉ flattenLogs c2State.store := by
  decide

/-- C2 (amended): the index is rebuilt wholesale from the store after an
explicit DELETE and after the cleanup endpoint/scheduler; at startup it
is built from the PRE-sweep store (load runs before cleanup); but a
successful save patches the index incrementally — the new entries are
appended to the old index (then re-sorted), with no rebuild, so entries
of overwritten or sweep-deleted files linger until the next rebuild. -/
theorem claim_C2_amended (now : Int) (st : ServerState) (fn : String)
    (ld : LogData) (files : Store) (hfn : fn ≠ "") :
    ((deleteHandler st fn).2 = 200 →
      ((deleteHandler st fn).1).allLogs =
        loadLogsFromFiles ((deleteHandler st fn).1).store)
    ∧ ((cleanupEndpoint now st).1.allLogs =
        loadLogsFromFiles (cleanupEndpoint now st).1.store)
    ∧ ((startupState now files).allLogs = loadLogsFromFiles files)
    ∧ ((saveHandler now st (some ld) (some fn)).1.allLogs).Perm
        (st.allLogs ++ ld.toList) := by
  refine ⟨?_, rfl, rfl, ?_⟩
  · intro h200
    simp only [deleteHandler, sanitizedPath_inside fn, Bool.not_true,
      Bool.false_eq_true, if_neg] at h200 ⊢
    by_cases he : st.store.any
        (fun f => f.1 = sanitize fn ++ ".json") = true
    · simp [he] at h200 ⊢
    · simp [he] at h200
  · simp only [saveHandler, if_neg hfn]
    exact sortByDesc_perm _ _

/-- Witness for C2 (amended): a concrete save appends its entry to the
index rather than rebuilding it. -/
theorem claim_C2_amended_witness :
    ("a" : String) ≠ "" ∧
    ((saveHandler tNow { store := [], allLogs := [] }
        (some (.entries [eRecent])) (some "a")).1.allLogs).Perm
      (([] : List LogEntry) ++ [eRecent]) :=
  ⟨by decide,
    (claim_C2_amended tNow { store := [], allLogs := [] } "a"
      (.entries [eRecent]) [] (by decide)).2.2.2⟩

/-- The state after a first save of a recent entry to stream `a`. -/
def c6State1 : ServerState :=
  (saveHandler tNow { store := [], allLogs := [] }
    (some (.entries [eRecent])) (some "a")).1

/-- The state after a second save of an ancient entry to the same
stream. -/
def c6State2 : ServerState :=
  (saveHandler tNow c6State1 (some (.entries [eAncient])) (some "a")).1

/-- C6 counterexample: the second save call succeeds (200), yet right
after it the file does not hold the second call's data — it does not
exist at all, because the post-save sweep that runs inside the same call
deleted the freshly written file (its only entry is older than the
window). -/
theorem counterexample_C6 :
    ((saveHandler tNow c6State1 (some (.entries [eAncient])) (some "a")).2.status
      = 200)
    ∧ lookupFile c6State2.store "a.json" = none
    ∧ (none : Option Content) ≠ some (Content.array [eAncient]) := by
  decide

/-- C6 (amended): a save reads nothing and fully replaces the file, so
after two successive successful saves to the same stream the file holds
exactly the second call's data — provided the second call's data does
not itself trip the post-save retention sweep (which would delete the
just-written file before the call returns). -/
theorem claim_C6_amended (now1 now2 : Int) (st : ServerState)
    (ld1 ld2 : LogData) (fn : String) (hfn : fn ≠ "")
    (hkeep : processFileDeleted now2
      (sanitize fn ++ ".json", ld2.toContent) = false) :
    ((saveHandler now2 (saveHandler now1 st (some ld1) (some fn)).1
        (some ld2) (some fn)).2.status = 200)
    ∧ lookupFile ((saveHandler now2 (saveHandler now1 st (some ld1) (some fn)).1
        (some ld2) (some fn)).1).store (sanitize fn ++ ".json") =
      some ld2.toContent := by
  simp only [saveHandler, if_neg hfn]
  refine ⟨trivial, ?_⟩
  apply lookupFile_filter
  · exact lookupFile_writeStore _ _ _
  · rw [hkeep]
    rfl

/-- Witness for C6 (amended) at concrete recent data. -/
theorem claim_C6_amended_witness :
    ("a" : String) ≠ ""
    ∧ processFileDeleted tNow
        (sanitize "a" ++ ".json", (LogData.entries [eRecent2]).toContent) = false
    ∧ lookupFile ((saveHandler tNow
        (saveHandler tNow { store := [], allLogs := [] }
          (some (.entries [eRecent])) (some "a")).1
        (some (.entries [eRecent2])) (some "a")).1).store
        (sanitize "a" ++ ".json") = some (LogData.entries [eRecent2]).toContent :=
  ⟨by decide, by decide,
    (claim_C6_amended tNow tNow { store := [], allLogs := [] }
      (.entries [eRecent]) (.entries [eRecent2]) "a"
      (by decide) (by decide)).2⟩

/-- What "sorted by timestamp descending and stable" means for a rebuild
with input `inp` and output `out`: pairwise non-increasing numeric
timestamps, and every timestamp class is preserved verbatim (same
entries, same relative order) by the sort. -/
def StableDescByTs (inp out : List LogEntry) : Prop :=
  out.Pairwise (fun a b => entryMs b ≤ entryMs a) ∧
  ∀ t : Int, out.filter (pKey (fun e => parseMs e.timestamp) t) =
    inp.filter (pKey (fun e => parseMs e.timestamp) t)

/-- C8: after a rebuild, `GET /api/logs` returns the index, which is a
permutation of the flattened store sorted by timestamp descending, and
the sort is stable: entries with equal timestamps retain their relative
file-enumeration order. (Timestamps are assumed parseable; with NaN
timestamps the comparator is not an order and the sort guarantees
nothing.) -/
theorem claim_C8 (files : Store)
    (hv : ∀ e ∈ flattenLogs files, (parseMs e.timestamp).isSome = true) :
    getApiRoute { store := files, allLogs := loadLogsFromFiles files } none =
      GetResponse.allLogs (loadLogsFromFiles files)
    ∧ (loadLogsFromFiles files).Perm (flattenLogs files)
    ∧ StableDescByTs (flattenLogs files) (loadLogsFromFiles files) := by
  have hperm : (loadLogsFromFiles files).Perm (flattenLogs files) :=
    sortByDesc_perm _ _
  refine ⟨rfl, hperm, ?_, ?_⟩
  · have hvout : ∀ e ∈ loadLogsFromFiles files,
        (parseMs e.timestamp).isSome = true :=
      fun e he => hv e (hperm.mem_iff.mp he)
    have hP := sortByDesc_pairwise (fun e => parseMs e.timestamp)
      (flattenLogs files)
    exact List.Pairwise.imp_of_mem
      (fun ha hb hr => by
        obtain ⟨va, hva⟩ := Option.isSome_iff_exists.mp (hvout _ ha)
        obtain ⟨vb, hvb⟩ := Option.isSome_iff_exists.mp (hvout _ hb)
        rw [hva, hvb] at hr
        have : ¬ va < vb := by simpa [jsLt] using hr
        simp [entryMs, hva, hvb]
        omega) hP
  · intro t
    exact filter_sortByDesc (fun e => parseMs e.timestamp) t (flattenLogs files)

/-- A concrete two-file store with a timestamp tie across files. -/
def c8Files : Store :=
  [("a.json", Content.array [mkEntry (.valid 5) "x", mkEntry (.valid 9) "y"]),
   ("b.json", Content.array [mkEntry (.valid 5) "z"])]

/-- Witness for C8 on a concrete store containing a timestamp tie. -/
theorem claim_C8_witness :
    (∀ e ∈ flattenLogs c8Files, (parseMs e.timestamp).isSome = true)
    ∧ (getApiRoute { store := c8Files, allLogs := loadLogsFromFiles c8Files }
        none = GetResponse.allLogs (loadLogsFromFiles c8Files)
      ∧ (loadLogsFromFiles c8Files).Perm (flattenLogs c8Files)
      ∧ StableDescByTs (flattenLogs c8Files) (loadLogsFromFiles c8Files)) :=
  ⟨by decide, claim_C8 c8Files (by decide)⟩

/-- The state after saving a recent entry under the stream name
`list` — the name shadowed by the listing route. -/
def c9ListState : ServerState :=
  (saveHandler tNow { store := [], allLogs := [] }
    (some (.entries [eRecent])) (some "list")).1

/-- The state after saving an ancient entry under stream `a`. -/
def c9OldState : ServerState :=
  (saveHandler tNow { store := [], allLogs := [] }
    (some (.entries [eAncient])) (some "a")).1

/-- C9 counterexample: the round trip fails for the stream name `list`
(the GET route answers the directory listing, not the saved entries) and
for data older than the retention window (the post-save sweep deletes
the file before it can be read back: GET answers 404). -/
theorem counterexample_C9 :
    ((saveHandler tNow { store := [], allLogs := [] }
        (some (.entries [eRecent])) (some "list")).2.status = 200)
    ∧ getApiRoute c9ListState (some "list") = GetResponse.listing 1 ["list.json"]
    ∧ GetResponse.listing 1 ["list.json"] ≠
        GetResponse.fileContent (Content.array [eRecent])
    ∧ ((saveHandler tNow { store := [], allLogs := [] }
        (some (.entries [eAncient])) (some "a")).2.status = 200)
    ∧ getApiRoute c9OldState (some "a") = GetResponse.notFound := by
  decide

/-- C9 (amended): for every stream name other than the shadowed `list`
(and non-empty), saving an array of N entries and reading the stream
back yields exactly the written array — same entries, same order —
provided the array does not itself trip the post-save sweep. -/
theorem claim_C9_amended (now : Int) (st : ServerState) (es : List LogEntry)
    (fn : String) (h1 : fn ≠ "") (h2 : fn ≠ "list")
    (hkeep : processFileDeleted now
      (sanitize fn ++ ".json", Content.array es) = false) :
    ((saveHandler now st (some (.entries es)) (some fn)).2.status = 200)
    ∧ getApiRoute (saveHandler now st (some (.entries es)) (some fn)).1
        (some fn) = GetResponse.fileContent (Content.array es) := by
  simp only [saveHandler, if_neg h1]
  refine ⟨trivial, ?_⟩
  simp only [getApiRoute, if_neg h2, if_neg h1]
  have hlook : lookupFile
      ((cleanupOldLogs now
        (writeStore st.store (sanitize fn ++ ".json")
          (LogData.entries es).toContent)).store)
      (sanitize fn ++ ".json") = some (Content.array es) := by
    apply lookupFile_filter
    · exact lookupFile_writeStore _ _ _
    · show (!(processFileDeleted now (sanitize fn ++ ".json", Content.array es)))
        = true
      rw [hkeep]
      rfl
  simp only [getFileResponse, sanitizedPath_inside fn, Bool.not_true,
    Bool.false_eq_true, if_neg, hlook]
  simp

/-- Witness for C9 (amended) at a concrete recent one-entry array. -/
theorem claim_C9_amended_witness :
    ("b" : String) ≠ ""
    ∧ ("b" : String) ≠ "list"
    ∧ processFileDeleted tNow
        (sanitize "b" ++ ".json", Content.array [eRecent]) = false
    ∧ getApiRoute (saveHandler tNow { store := [], allLogs := [] }
        (some (.entries [eRecent])) (some "b")).1 (some "b") =
      GetResponse.fileContent (Content.array [eRecent]) :=
  ⟨by decide, by decide, by decide,
    (claim_C9_amended tNow { store := [], allLogs := [] } [eRecent] "b"
      (by decide) (by decide) (by decide)).2⟩

/-- Witness for C4 (amended) at the concrete traversal name. -/
theorem claim_C4_amended_witness :
    jsStartsWith (pathJoin logDirPath (sanitize "../../etc/passwd" ++ ".json"))
      logDirPath = true
    ∧ getFileResponse { store := [], allLogs := [] } "../../etc/passwd" ≠
        GetResponse.accessDenied
    ∧ (deleteHandler { store := [], allLogs := [] } "../../etc/passwd").2 ≠ 403
    ∧ getFileResponse { store := [], allLogs := [] } "../../etc/passwd" =
        GetResponse.notFound :=
  claim_C4_amended "../../etc/passwd" { store := [], allLogs := [] }

/-- Witness for C5 at a concrete state and request. -/
theorem claim_C5_witness :
    saveHandler tNow { store := [], allLogs := [] } none (some "a") =
      ({ store := [], allLogs := [] },
       { status := 400, error := some "logData is required",
         filePath := none, fileName := none })
    ∧ saveHandler tNow { store := [], allLogs := [] }
        (some (.entries [eRecent])) none =
      ({ store := [], allLogs := [] },
       { status := 400, error := some "fileName is required",
         filePath := none, fileName := none }) :=
  claim_C5 tNow { store := [], allLogs := [] } (some "a") (.entries [eRecent])

/-- Witness for C7 at a concrete store with one malformed file between
two healthy ones. -/
theorem claim_C7_witness :
    ((cleanupOldLogs tNow ([("x.json", Content.array [eRecent])] ++
        ("bad.json", Content.malformed) :: [("y.json", Content.array [eAncient])])).store =
      (cleanupOldLogs tNow [("x.json", Content.array [eRecent])]).store ++
        ("bad.json", Content.malformed) ::
          (cleanupOldLogs tNow [("y.json", Content.array [eAncient])]).store)
    ∧ ((cleanupOldLogs tNow ([("x.json", Content.array [eRecent])] ++
        ("bad.json", Content.malformed) :: [("y.json", Content.array [eAncient])])).deletedFiles =
      (cleanupOldLogs tNow [("x.json", Content.array [eRecent])]).deletedFiles ++
        (cleanupOldLogs tNow [("y.json", Content.array [eAncient])]).deletedFiles)
    ∧ ((cleanupOldLogs tNow ([("x.json", Content.array [eRecent])] ++
        ("bad.json", Content.ioError) :: [("y.json", Content.array [eAncient])])).store =
      (cleanupOldLogs tNow [("x.json", Content.array [eRecent])]).store ++
        ("bad.json", Content.ioError) ::
          (cleanupOldLogs tNow [("y.json", Content.array [eAncient])]).store)
    ∧ ((cleanupOldLogs tNow ([("x.json", Content.array [eRecent])] ++
        ("bad.json", Content.ioError) :: [("y.json", Content.array [eAncient])])).success = true)
    ∧ ((saveHandler tNow
          { store := [("x.json", Content.array [eRecent])] ++
              ("bad.json", Content.malformed) :: [("y.json", Content.array [eAncient])],
            allLogs := [] }
          (some (.entry eRecent2)) (some "stream1")).2.status = 200) :=
  claim_C7 tNow [("x.json", Content.array [eRecent])]
    [("y.json", Content.array [eAncient])] "bad.json" [] (.entry eRecent2)

/-- Witness for C10 at the concrete traversal name. -/
theorem claim_C10_witness :
    (∀ c ∈ (sanitize "../../etc/passwd").data, allowedChar c = true)
    ∧ jsStartsWith (pathJoin logDirPath (sanitize "../../etc/passwd" ++ ".json"))
        logDirPath = true
    ∧ getFileResponse { store := [], allLogs := [] } "../../etc/passwd" ≠
        GetResponse.accessDenied
    ∧ (deleteHandler { store := [], allLogs := [] } "../../etc/passwd").2 ≠ 403
    ∧ ((saveHandler tNow { store := [], allLogs := [] }
        (some (.entry eRecent)) (some "../../etc/passwd")).2.filePath).all
        (fun p => jsStartsWith p logDirPath) = true :=
  claim_C10 "../../etc/passwd" { store := [], allLogs := [] } tNow (.entry eRecent)

end LogReader
